import Mathlib

/-!
Shallow embedding of the Ecspanse native query engine
(`src/native/ecspanse/src/lib.rs`): membership-index building, entity
scope filters, component-set matching and result-tuple building.

Entity IDs and component tags are opaque tokens with equality only; both
are modelled as `String` (entity IDs are strings in the source, component
tags are atoms).  Rust `HashMap`s are modelled as association lists
carrying the map's entry sequence; `getAssoc` returns the first entry
with the given key, and the component-value table of
`build_return_vectors` is modelled extensionally as a function
`EntityId × Tag → Option V` over an opaque value type `V`.
-/

namespace Ecspanse

abbrev EntityId := String

abbrev Tag := String

/-- The `Entity` struct of the source (`pub struct Entity { id: String }`). -/
structure Entity where
  id : EntityId
  deriving DecidableEq, Repr

/-- The `QueryWithComponents` struct of the source: one query clause. -/
structure QueryWithComponents where
  «with» : List Tag
  without : List Tag
  deriving DecidableEq, Repr

/-- First-match lookup in an association list (models `HashMap::get`). -/
def getAssoc {α : Type} (m : List (EntityId × α)) (k : EntityId) : Option α :=
  match m with
  | [] => none
  | p :: rest => if p.1 = k then some p.2 else getAssoc rest k

/-- One step of `itertools::into_group_map`: push `v` onto the group of
`k`, creating the group at the end if `k` is new. -/
def addPair (m : List (EntityId × List Tag)) (k : EntityId) (v : Tag) :
    List (EntityId × List Tag) :=
  match m with
  | [] => [(k, [v])]
  | (k', vs) :: rest =>
    if k' = k then (k', vs ++ [v]) :: rest else (k', vs) :: addPair rest k v

/-- Models `list_entities_components`: groups `(entity, component)` pairs into a
map from entity ID to the list of its components (`into_group_map`). -/
def list_entities_components (l : List (EntityId × Tag)) : List (EntityId × List Tag) :=
  l.foldl (fun m p => addPair m p.1 p.2) []

/-- Helper for `itertools::unique`: drop elements already seen. -/
def uniqueFirstAux {α : Type} [DecidableEq α] : List α → List α → List α
  | [], _ => []
  | x :: xs, seen =>
    if x ∈ seen then uniqueFirstAux xs seen else x :: uniqueFirstAux xs (x :: seen)

/-- Models `itertools::unique`: keep the first occurrence of each element. -/
def uniqueFirst {α : Type} [DecidableEq α] (l : List α) : List α :=
  uniqueFirstAux l []

/-- Models `query_filter_for_entities`: an empty allow-list leaves the map
unchanged; otherwise rebuild a map holding, for each allow-listed entity
present in the input map, that entity's component list. -/
def query_filter_for_entities (entities_components : List (EntityId × List Tag))
    (filter_entities : List Entity) : List (EntityId × List Tag) :=
  if filter_entities.isEmpty then entities_components
  else
    (uniqueFirst (filter_entities.map Entity.id)).filterMap
      (fun id => (getAssoc entities_components id).map (fun comps => (id, comps)))

/-- Models `query_filter_not_for_entities`: remove every deny-listed key. -/
def query_filter_not_for_entities (entities_components : List (EntityId × List Tag))
    (reject_entities : List Entity) : List (EntityId × List Tag) :=
  entities_components.filter (fun p => !((reject_entities.map Entity.id).contains p.1))

/-- The per-entity clause test of `query_filter_by_components`: all
`with` components present and no `without` component present. -/
def clauseMatch (comp : QueryWithComponents) (component_modules : List Tag) : Bool :=
  comp.«with».all (fun elem => component_modules.contains elem) &&
    !(comp.without.any (fun elem => component_modules.contains elem))

/-- Models `query_filter_by_components`: for each clause keep the matching
entities, concatenate across clauses, and dedup keeping the first
occurrence of each ID (`itertools::unique`). -/
def query_filter_by_components (entities_components : List (EntityId × List Tag))
    (components : List QueryWithComponents) : List EntityId :=
  uniqueFirst (components.flatMap (fun comp =>
    (entities_components.filter (fun p => clauseMatch comp p.2)).map Prod.fst))

/-- A slot of a result record: an encoded entity, an opaque component
value, or the `nil` atom. -/
inductive Slot (V : Type) where
  | entity (e : Entity)
  | value (v : V)
  | nil
  deriving DecidableEq, Repr

/-- The mandatory-component loop of `build_return_vectors`: push values
until the first missing lookup, which clears the record
(`clear = false`) and breaks. -/
def mandatoryLoop {V : Type} (table : EntityId × Tag → Option V) (entity_id : EntityId) :
    List Tag → List (Slot V) × Bool
  | [] => ([], true)
  | comp :: rest =>
    match table (entity_id, comp) with
    | some v =>
      let p := mandatoryLoop table entity_id rest
      (Slot.value v :: p.1, p.2)
    | none => ([], false)

/-- The optional-component loop of `build_return_vectors`: a missing
lookup pushes the nil atom instead of a value. -/
def optionalLoop {V : Type} (table : EntityId × Tag → Option V) (entity_id : EntityId)
    (comps : List Tag) : List (Slot V) :=
  comps.map (fun comp =>
    match table (entity_id, comp) with
    | some v => Slot.value v
    | none => Slot.nil)

/-- The records one entity contributes to `build_return_vectors`: the
assembled record when `clear` stays true, nothing otherwise. -/
def entityRecords {V : Type} (return_entity : Bool)
    (select_components select_optional_components : List Tag)
    (table : EntityId × Tag → Option V) (entity_id : EntityId) : List (List (Slot V)) :=
  let head : List (Slot V) := if return_entity then [Slot.entity ⟨entity_id⟩] else []
  let p := mandatoryLoop table entity_id select_components
  if p.2 then
    [head ++ p.1 ++ optionalLoop table entity_id select_optional_components]
  else []

/-- Models `build_return_vectors`: one record per entity of the input list, in
input order, skipping entities whose record was cleared. -/
def build_return_vectors {V : Type} (return_entity : Bool)
    (select_components select_optional_components : List Tag)
    (entity_ids : List EntityId) (filtered_components_map : EntityId × Tag → Option V) :
    List (List (Slot V)) :=
  entity_ids.flatMap
    (entityRecords return_entity select_components select_optional_components
      filtered_components_map)

/-- An entity is kept iff every mandatory lookup succeeds. -/
def keepEntity {V : Type} (select_components : List Tag)
    (table : EntityId × Tag → Option V) (entity_id : EntityId) : Bool :=
  select_components.all (fun comp => (table (entity_id, comp)).isSome)

/-- The record emitted for a kept entity: the entity slot when requested,
then one value slot per mandatory component in caller order, then one
slot per optional component in caller order. -/
def recordFor {V : Type} (return_entity : Bool)
    (select_components select_optional_components : List Tag)
    (table : EntityId × Tag → Option V) (entity_id : EntityId) : List (Slot V) :=
  (if return_entity then [Slot.entity ⟨entity_id⟩] else [])
    ++ select_components.filterMap (fun comp => (table (entity_id, comp)).map Slot.value)
    ++ optionalLoop table entity_id select_optional_components

/-! ### Helper lemmas -/

theorem mem_uniqueFirstAux {α : Type} [DecidableEq α] {a : α} :
    ∀ {l seen : List α}, a ∈ uniqueFirstAux l seen ↔ a ∈ l ∧ a ∉ seen := by
  intro l
  induction l with
  | nil => simp [uniqueFirstAux]
  | cons x xs ih =>
    intro seen
    by_cases hx : x ∈ seen
    · rw [show uniqueFirstAux (x :: xs) seen = uniqueFirstAux xs seen by
        simp [uniqueFirstAux, if_pos hx], ih]
      constructor
      · rintro ⟨ha, hs⟩
        exact ⟨List.mem_cons_of_mem _ ha, hs⟩
      · rintro ⟨ha, hs⟩
        rcases List.mem_cons.mp ha with rfl | ha'
        · exact absurd hx hs
        · exact ⟨ha', hs⟩
    · rw [show uniqueFirstAux (x :: xs) seen = x :: uniqueFirstAux xs (x :: seen) by
        simp [uniqueFirstAux, if_neg hx]]
      constructor
      · intro h
        rcases List.mem_cons.mp h with rfl | h'
        · exact ⟨List.mem_cons_self _ _, hx⟩
        · obtain ⟨ha, hs⟩ := ih.mp h'
          exact ⟨List.mem_cons_of_mem _ ha, fun hmem => hs (List.mem_cons_of_mem _ hmem)⟩
      · rintro ⟨ha, hs⟩
        rcases List.mem_cons.mp ha with rfl | ha'
        · exact List.mem_cons_self _ _
        · by_cases hax : a = x
          · exact hax ▸ List.mem_cons_self _ _
          · refine List.mem_cons_of_mem _ (ih.mpr ⟨ha', ?_⟩)
            intro hmem
            rcases List.mem_cons.mp hmem with h1 | h2
            · exact hax h1
            · exact hs h2

theorem mem_uniqueFirst {α : Type} [DecidableEq α] {a : α} {l : List α} :
    a ∈ uniqueFirst l ↔ a ∈ l := by
  simp [uniqueFirst, mem_uniqueFirstAux]

theorem nodup_uniqueFirstAux {α : Type} [DecidableEq α] :
    ∀ {l seen : List α}, (uniqueFirstAux l seen).Nodup := by
  intro l
  induction l with
  | nil => intro seen; simp [uniqueFirstAux]
  | cons x xs ih =>
    intro seen
    by_cases hx : x ∈ seen
    · simpa [uniqueFirstAux, if_pos hx] using ih
    · simp only [uniqueFirstAux, if_neg hx]
      refine List.Nodup.cons ?_ ih
      intro hmem
      exact ((mem_uniqueFirstAux.mp hmem).2) (List.mem_cons_self _ _)

theorem nodup_uniqueFirst {α : Type} [DecidableEq α] {l : List α} :
    (uniqueFirst l).Nodup :=
  nodup_uniqueFirstAux

theorem clauseMatch_iff {comp : QueryWithComponents} {tags : List Tag} :
    clauseMatch comp tags = true ↔
      (∀ t ∈ comp.«with», t ∈ tags) ∧ (∀ t ∈ comp.without, t ∉ tags) := by
  simp [clauseMatch, List.elem_iff]

theorem mem_query_filter_by_components
    {entities_components : List (EntityId × List Tag)}
    {components : List QueryWithComponents} {e : EntityId} :
    e ∈ query_filter_by_components entities_components components ↔
      ∃ comp ∈ components, ∃ tags, (e, tags) ∈ entities_components ∧
        clauseMatch comp tags = true := by
  simp only [query_filter_by_components, mem_uniqueFirst, List.mem_flatMap,
    List.mem_map, List.mem_filter]
  constructor
  · rintro ⟨comp, hc, p, ⟨hpm, hpmatch⟩, rfl⟩
    exact ⟨comp, hc, p.2, hpm, hpmatch⟩
  · rintro ⟨comp, hc, tags, hm, hmatch⟩
    exact ⟨comp, hc, (e, tags), ⟨hm, hmatch⟩, rfl⟩

theorem mandatoryLoop_snd {V : Type} (table : EntityId × Tag → Option V)
    (entity_id : EntityId) (sel : List Tag) :
    (mandatoryLoop table entity_id sel).2 = keepEntity sel table entity_id := by
  induction sel with
  | nil => simp [mandatoryLoop, keepEntity]
  | cons comp rest ih =>
    rcases h : table (entity_id, comp) with _ | v
    · simp [mandatoryLoop, keepEntity, h]
    · simpa [mandatoryLoop, keepEntity, h] using ih

theorem mandatoryLoop_fst {V : Type} (table : EntityId × Tag → Option V)
    (entity_id : EntityId) (sel : List Tag)
    (h : keepEntity sel table entity_id = true) :
    (mandatoryLoop table entity_id sel).1 =
      sel.filterMap (fun comp => (table (entity_id, comp)).map Slot.value) := by
  induction sel with
  | nil => simp [mandatoryLoop]
  | cons comp rest ih =>
    rcases hc : table (entity_id, comp) with _ | v
    · exfalso
      simp [keepEntity, hc] at h
    · have hrest : keepEntity rest table entity_id = true := by
        simpa [keepEntity, hc] using h
      simp [mandatoryLoop, hc, ih hrest]

theorem entityRecords_eq {V : Type} (return_entity : Bool)
    (sel selOpt : List Tag) (table : EntityId × Tag → Option V) (entity_id : EntityId) :
    entityRecords return_entity sel selOpt table entity_id =
      if keepEntity sel table entity_id then
        [recordFor return_entity sel selOpt table entity_id]
      else [] := by
  by_cases hk : keepEntity sel table entity_id = true
  · simp only [entityRecords, mandatoryLoop_snd, hk, if_true, recordFor,
      mandatoryLoop_fst table entity_id sel hk, List.append_assoc]
  · simp only [entityRecords, mandatoryLoop_snd, hk, Bool.false_eq_true, if_false]

theorem build_return_vectors_eq {V : Type} (return_entity : Bool)
    (sel selOpt : List Tag) (entity_ids : List EntityId)
    (table : EntityId × Tag → Option V) :
    build_return_vectors return_entity sel selOpt entity_ids table =
      (entity_ids.filter (keepEntity sel table)).map
        (recordFor return_entity sel selOpt table) := by
  induction entity_ids with
  | nil => rfl
  | cons e rest ih =>
    by_cases hk : keepEntity sel table e = true
    · simp [build_return_vectors, List.filter_cons, hk, entityRecords_eq,
        ← ih, build_return_vectors]
    · simp [build_return_vectors, List.filter_cons, hk, entityRecords_eq,
        ← ih, build_return_vectors]

theorem getAssoc_filter_key {α : Type} (m : List (EntityId × α))
    (pred : EntityId → Bool) (k : EntityId) :
    getAssoc (m.filter (fun p => pred p.1)) k =
      if pred k then getAssoc m k else none := by
  induction m with
  | nil => simp [getAssoc]
  | cons p rest ih =>
    rcases hp : pred p.1 with _ | _
    · rw [List.filter_cons, hp]
      simp only [Bool.false_eq_true, if_false, ih]
      by_cases hk : p.1 = k
      · rw [show getAssoc (p :: rest) k = some p.2 by simp [getAssoc, hk], ← hk, hp]
        simp
      · rw [show getAssoc (p :: rest) k = getAssoc rest k by simp [getAssoc, hk]]
    · rw [List.filter_cons, hp]
      simp only [if_true]
      by_cases hk : p.1 = k
      · rw [show getAssoc (p :: rest.filter (fun p => pred p.1)) k = some p.2 by
          simp [getAssoc, hk]]
        rw [show getAssoc (p :: rest) k = some p.2 by simp [getAssoc, hk], ← hk, hp]
        simp
      · rw [show getAssoc (p :: rest.filter (fun p => pred p.1)) k =
            getAssoc (rest.filter (fun p => pred p.1)) k by simp [getAssoc, hk]]
        rw [show getAssoc (p :: rest) k = getAssoc rest k by simp [getAssoc, hk], ih]

theorem getAssoc_filterMap_getAssoc {m : List (EntityId × List Tag)}
    (l : List EntityId) (k : EntityId) (cs : List Tag)
    (h : getAssoc (l.filterMap
        (fun id => (getAssoc m id).map (fun comps => (id, comps)))) k = some cs) :
    getAssoc m k = some cs := by
  induction l with
  | nil => simp [getAssoc] at h
  | cons x rest ih =>
    rcases hx : getAssoc m x with _ | vsx
    · rw [List.filterMap_cons, hx] at h
      exact ih h
    · rw [List.filterMap_cons, hx] at h
      simp only [Option.map_some'] at h
      by_cases hk : x = k
      · rw [show getAssoc ((x, vsx) :: rest.filterMap
            (fun id => (getAssoc m id).map (fun comps => (id, comps)))) k = some vsx by
            simp [getAssoc, hk]] at h
        rw [← hk, hx, h]
      · rw [show getAssoc ((x, vsx) :: rest.filterMap
            (fun id => (getAssoc m id).map (fun comps => (id, comps)))) k =
            getAssoc (rest.filterMap
              (fun id => (getAssoc m id).map (fun comps => (id, comps)))) k by
            simp [getAssoc, hk]] at h
        exact ih h

theorem map_fst_addPair (m : List (EntityId × List Tag)) (k : EntityId) (v : Tag) :
    (addPair m k v).map Prod.fst =
      if k ∈ m.map Prod.fst then m.map Prod.fst else m.map Prod.fst ++ [k] := by
  induction m with
  | nil => simp [addPair]
  | cons p rest ih =>
    by_cases hk : p.1 = k
    · simp [addPair, hk]
    · have : (addPair (p :: rest) k v) = p :: addPair rest k v := by
        cases p with
        | mk k' vs => simp [addPair, hk]
      rw [this]
      by_cases hmem : k ∈ rest.map Prod.fst
      · simp [hmem, ih, Ne.symm hk]
      · simp [hmem, ih, Ne.symm hk]

theorem getAssoc_addPair_self (m : List (EntityId × List Tag)) (k : EntityId) (v : Tag) :
    getAssoc (addPair m k v) k = some ((getAssoc m k).getD [] ++ [v]) := by
  induction m with
  | nil => simp [addPair, getAssoc]
  | cons p rest ih =>
    by_cases hk : p.1 = k
    · cases p with
      | mk k' vs => simp_all [addPair, getAssoc]
    · have h1 : (addPair (p :: rest) k v) = p :: addPair rest k v := by
        cases p with
        | mk k' vs => simp [addPair, hk]
      rw [h1, show getAssoc (p :: addPair rest k v) k = getAssoc (addPair rest k v) k by
        simp [getAssoc, hk], ih,
        show getAssoc (p :: rest) k = getAssoc rest k by simp [getAssoc, hk]]

theorem getAssoc_addPair_ne (m : List (EntityId × List Tag)) (k : EntityId) (v : Tag)
    (k' : EntityId) (h : k ≠ k') :
    getAssoc (addPair m k v) k' = getAssoc m k' := by
  induction m with
  | nil => simp [addPair, getAssoc, h]
  | cons p rest ih =>
    by_cases hk : p.1 = k
    · cases p with
      | mk k0 vs =>
        simp only at hk
        subst hk
        simp [addPair, getAssoc, h]
    · have h1 : (addPair (p :: rest) k v) = p :: addPair rest k v := by
        cases p with
        | mk k0 vs => simp [addPair, hk]
      rw [h1]
      by_cases hk' : p.1 = k'
      · simp [getAssoc, hk']
      · rw [show getAssoc (p :: addPair rest k v) k' = getAssoc (addPair rest k v) k' by
          simp [getAssoc, hk'], ih,
          show getAssoc (p :: rest) k' = getAssoc rest k' by simp [getAssoc, hk']]

theorem uniqueFirstAux_congr {α : Type} [DecidableEq α] :
    ∀ (l : List α) (s s' : List α), (∀ a, a ∈ s ↔ a ∈ s') →
      uniqueFirstAux l s = uniqueFirstAux l s' := by
  intro l
  induction l with
  | nil => intro s s' _; simp [uniqueFirstAux]
  | cons x xs ih =>
    intro s s' h
    by_cases hx : x ∈ s
    · rw [show uniqueFirstAux (x :: xs) s = uniqueFirstAux xs s by
        simp [uniqueFirstAux, if_pos hx],
        show uniqueFirstAux (x :: xs) s' = uniqueFirstAux xs s' by
        simp [uniqueFirstAux, if_pos ((h x).mp hx)]]
      exact ih _ _ h
    · have hx' : x ∉ s' := fun hc => hx ((h x).mpr hc)
      rw [show uniqueFirstAux (x :: xs) s = x :: uniqueFirstAux xs (x :: s) by
        simp [uniqueFirstAux, if_neg hx],
        show uniqueFirstAux (x :: xs) s' = x :: uniqueFirstAux xs (x :: s') by
        simp [uniqueFirstAux, if_neg hx']]
      refine congrArg _ (ih _ _ ?_)
      intro a
      simp [h a]

theorem map_fst_foldl_addPair :
    ∀ (l : List (EntityId × Tag)) (m : List (EntityId × List Tag)),
      ((l.foldl (fun m p => addPair m p.1 p.2) m).map Prod.fst) =
        m.map Prod.fst ++ uniqueFirstAux (l.map Prod.fst) (m.map Prod.fst) := by
  intro l
  induction l with
  | nil => intro m; simp [uniqueFirstAux]
  | cons p ps ih =>
    intro m
    rw [List.foldl_cons, ih (addPair m p.1 p.2), map_fst_addPair]
    by_cases hmem : p.1 ∈ m.map Prod.fst
    · rw [if_pos hmem, List.map_cons,
        show uniqueFirstAux (p.1 :: ps.map Prod.fst) (m.map Prod.fst) =
          uniqueFirstAux (ps.map Prod.fst) (m.map Prod.fst) by
          simp [uniqueFirstAux, if_pos hmem]]
    · rw [if_neg hmem, List.map_cons,
        show uniqueFirstAux (p.1 :: ps.map Prod.fst) (m.map Prod.fst) =
          p.1 :: uniqueFirstAux (ps.map Prod.fst) (p.1 :: m.map Prod.fst) by
          simp [uniqueFirstAux, if_neg hmem],
        uniqueFirstAux_congr (ps.map Prod.fst)
          (m.map Prod.fst ++ [p.1]) (p.1 :: m.map Prod.fst) (by intro a; simp; tauto)]
      simp

theorem getAssoc_foldl_addPair_some :
    ∀ (l : List (EntityId × Tag)) (m : List (EntityId × List Tag)) (k : EntityId)
      (vs : List Tag), getAssoc m k = some vs →
      getAssoc (l.foldl (fun m p => addPair m p.1 p.2) m) k =
        some (vs ++ (l.filter (fun p => p.1 = k)).map Prod.snd) := by
  intro l
  induction l with
  | nil => intro m k vs h; simpa using h
  | cons p ps ih =>
    intro m k vs h
    rw [List.foldl_cons]
    by_cases hk : p.1 = k
    · have h1 : getAssoc (addPair m p.1 p.2) k = some (vs ++ [p.2]) := by
        rw [hk, getAssoc_addPair_self, h]
        rfl
      rw [ih _ _ _ h1, List.filter_cons, if_pos (by simpa using hk)]
      simp
    · have h1 : getAssoc (addPair m p.1 p.2) k = some vs := by
        rw [getAssoc_addPair_ne _ _ _ _ hk, h]
      rw [ih _ _ _ h1, List.filter_cons, if_neg (by simpa using hk)]

theorem getAssoc_foldl_addPair_none :
    ∀ (l : List (EntityId × Tag)) (m : List (EntityId × List Tag)) (k : EntityId),
      getAssoc m k = none →
      getAssoc (l.foldl (fun m p => addPair m p.1 p.2) m) k =
        if k ∈ l.map Prod.fst then
          some ((l.filter (fun p => p.1 = k)).map Prod.snd)
        else none := by
  intro l
  induction l with
  | nil => intro m k h; simpa using h
  | cons p ps ih =>
    intro m k h
    rw [List.foldl_cons]
    by_cases hk : p.1 = k
    · have h1 : getAssoc (addPair m p.1 p.2) k = some [p.2] := by
        rw [hk, getAssoc_addPair_self, h]
        rfl
      have hmem : k ∈ (p :: ps).map Prod.fst := by
        simp only [List.map_cons, List.mem_cons]
        exact Or.inl hk.symm
      have hfilt : decide (p.1 = k) = true := by simpa using hk
      rw [getAssoc_foldl_addPair_some _ _ _ _ h1, if_pos hmem, List.filter_cons,
        if_pos hfilt]
      simp
    · have h1 : getAssoc (addPair m p.1 p.2) k = none := by
        rw [getAssoc_addPair_ne _ _ _ _ hk, h]
      have hiff : (k ∈ (p :: ps).map Prod.fst) ↔ (k ∈ ps.map Prod.fst) := by
        simp only [List.map_cons, List.mem_cons]
        constructor
        · rintro (rfl | hmem)
          · exact absurd rfl hk
          · exact hmem
        · exact Or.inr
      have hfilt : ¬(decide (p.1 = k) = true) := by simpa using hk
      rw [ih _ _ h1, List.filter_cons, if_neg hfilt]
      by_cases hmem : k ∈ ps.map Prod.fst
      · rw [if_pos hmem, if_pos (hiff.mpr hmem)]
      · rw [if_neg hmem, if_neg (fun hc => hmem (hiff.mp hc))]

theorem length_filterMap_of_isSome {V : Type} (table : EntityId × Tag → Option V)
    (entity_id : EntityId) (sel : List Tag)
    (h : ∀ comp ∈ sel, (table (entity_id, comp)).isSome) :
    (sel.filterMap (fun comp => (table (entity_id, comp)).map Slot.value)).length =
      sel.length := by
  induction sel with
  | nil => rfl
  | cons c rest ih =>
    rcases hc : table (entity_id, c) with _ | v
    · have := h c (List.mem_cons_self _ _)
      rw [hc] at this
      simp at this
    · rw [List.filterMap_cons, hc]
      simp only [Option.map_some', List.length_cons]
      rw [ih (fun comp hmem => h comp (List.mem_cons_of_mem _ hmem))]

theorem flatMap_filter_ne {α β : Type} [DecidableEq α] (f : α → List β)
    (l : List α) (e : α) (h : f e = []) :
    (l.filter (fun x => x ≠ e)).flatMap f = l.flatMap f := by
  induction l with
  | nil => rfl
  | cons x rest ih =>
    by_cases hx : x = e
    · rw [List.filter_cons, if_neg (by simp [hx]), ih, List.flatMap_cons, hx, h,
        List.nil_append]
    · rw [List.filter_cons, if_pos (by simpa using hx), List.flatMap_cons,
        List.flatMap_cons, ih]

theorem getAssoc_query_filter_not (m : List (EntityId × List Tag))
    (rs : List Entity) (k : EntityId) :
    getAssoc (query_filter_not_for_entities m rs) k =
      if !((rs.map Entity.id).contains k) then getAssoc m k else none :=
  getAssoc_filter_key m (fun id => !((rs.map Entity.id).contains id)) k

/-! ### Claim theorems -/

/-- C2 (counterexample): `query_filter_by_components` called with an
empty clause list does not raise an `InputError`: on a concrete
non-empty mapping it returns normally with the empty result list. -/
theorem query_filter_by_components_no_clauses_counterexample :
    query_filter_by_components [("e1", ["A"])] [] = [] := rfl

/-- C2 (amended): for every membership mapping,
`query_filter_by_components` with an empty clause list returns the empty
list of entity IDs; no error is raised at this layer. -/
theorem query_filter_by_components_no_clauses (m : List (EntityId × List Tag)) :
    query_filter_by_components m [] = [] := rfl

/-- C5: `query_filter_for_entities` applied with an empty allow-list
returns the membership mapping unchanged — the empty allow-list means
the filter is inactive, not "keep nothing". -/
theorem query_filter_for_entities_empty_allow_list
    (m : List (EntityId × List Tag)) :
    query_filter_for_entities m [] = m := rfl

/-- C7: `query_filter_not_for_entities` returns the mapping with exactly
the deny-listed keys deleted: an entry survives iff its key is not
deny-listed, the lookup of a deny-listed key becomes `none` while every
other lookup is unchanged, an empty deny-list and deny-listed IDs not
present in the mapping are no-ops, and the operation is idempotent. -/
theorem query_filter_not_for_entities_exact_delete_idempotent
    (m : List (EntityId × List Tag)) (rs : List Entity) :
    (∀ p, p ∈ query_filter_not_for_entities m rs ↔
        p ∈ m ∧ p.1 ∉ rs.map Entity.id)
    ∧ (∀ k, getAssoc (query_filter_not_for_entities m rs) k =
        if k ∈ rs.map Entity.id then none else getAssoc m k)
    ∧ query_filter_not_for_entities m [] = m
    ∧ ((∀ p ∈ m, p.1 ∉ rs.map Entity.id) →
        query_filter_not_for_entities m rs = m)
    ∧ query_filter_not_for_entities (query_filter_not_for_entities m rs) rs =
        query_filter_not_for_entities m rs := by
  refine ⟨?_, ?_, ?_, ?_, ?_⟩
  · intro p
    simp [query_filter_not_for_entities, List.mem_filter, List.elem_iff]
  · intro k
    rw [getAssoc_query_filter_not]
    by_cases hmem : k ∈ rs.map Entity.id
    · have hc : (rs.map Entity.id).contains k = true := List.elem_iff.mpr hmem
      rw [hc, if_pos hmem]
      simp
    · have hc : (rs.map Entity.id).contains k = false := by
        rw [← Bool.not_eq_true]
        exact fun hcc => hmem (List.elem_iff.mp hcc)
      rw [hc, if_neg hmem]
      simp
  · simp [query_filter_not_for_entities]
  · intro hnone
    rw [query_filter_not_for_entities]
    refine List.filter_eq_self.mpr ?_
    intro p hp
    simpa [List.elem_iff] using hnone p hp
  · rw [query_filter_not_for_entities, query_filter_not_for_entities]
    refine List.filter_eq_self.mpr ?_
    intro p hp
    exact (List.mem_filter.mp hp).2

/-- C7 witness: deny-listing an ID absent from the mapping leaves the
mapping unchanged. -/
theorem query_filter_not_for_entities_exact_delete_idempotent_witness :
    query_filter_not_for_entities [("e1", ["A"])] [⟨"e2"⟩] = [("e1", ["A"])] :=
  (query_filter_not_for_entities_exact_delete_idempotent
    [("e1", ["A"])] [⟨"e2"⟩]).2.2.2.1 (by decide)

/-- C10: both scope filters only filter keys and never touch values:
any key retained by `query_filter_for_entities` (with a non-empty
allow-list) or by `query_filter_not_for_entities` keeps exactly the
component list it had in the input mapping. -/
theorem scope_filters_preserve_component_lists
    (m : List (EntityId × List Tag)) (fs rs : List Entity)
    (k : EntityId) (cs : List Tag) (hfs : fs ≠ []) :
    (getAssoc (query_filter_for_entities m fs) k = some cs →
        getAssoc m k = some cs)
    ∧ (getAssoc (query_filter_not_for_entities m rs) k = some cs →
        getAssoc m k = some cs) := by
  constructor
  · intro h
    rw [query_filter_for_entities, if_neg (by simpa using hfs)] at h
    exact getAssoc_filterMap_getAssoc _ _ _ h
  · intro h
    rw [getAssoc_query_filter_not] at h
    by_cases hmem : k ∈ rs.map Entity.id
    · have hc : (rs.map Entity.id).contains k = true := List.elem_iff.mpr hmem
      rw [hc] at h
      simp at h
    · have hc : (rs.map Entity.id).contains k = false := by
        rw [← Bool.not_eq_true]
        exact fun hcc => hmem (List.elem_iff.mp hcc)
      rw [hc] at h
      simpa using h

/-- C10 witness: a key surviving a non-empty allow-list keeps its
component list. -/
theorem scope_filters_preserve_component_lists_witness :
    getAssoc [("e1", ["A"])] "e1" = some ["A"] :=
  (scope_filters_preserve_component_lists [("e1", ["A"])] [⟨"e1"⟩] []
    "e1" ["A"] (by decide)).1 (by decide)

/-- C3: for every membership mapping and non-empty clause list,
`query_filter_by_components` returns exactly the deduplicated set of
entity IDs whose tag list is a superset of some clause's `with` set and
disjoint from that clause's `without` set; in particular a clause with
empty `with` matches every entity not excluded by its `without`, and a
clause with empty `without` excludes nothing. -/
theorem query_filter_by_components_spec
    (m : List (EntityId × List Tag)) (cs : List QueryWithComponents)
    (hcs : cs ≠ []) :
    (∀ e, e ∈ query_filter_by_components m cs ↔
        ∃ comp ∈ cs, ∃ tags, (e, tags) ∈ m ∧
          (∀ t ∈ comp.«with», t ∈ tags) ∧ (∀ t ∈ comp.without, t ∉ tags))
    ∧ (query_filter_by_components m cs).Nodup
    ∧ (∀ comp ∈ cs, comp.«with» = [] → ∀ e tags, (e, tags) ∈ m →
        (∀ t ∈ comp.without, t ∉ tags) → e ∈ query_filter_by_components m cs)
    ∧ (∀ comp ∈ cs, comp.without = [] → ∀ e tags, (e, tags) ∈ m →
        (∀ t ∈ comp.«with», t ∈ tags) → e ∈ query_filter_by_components m cs) := by
  have hmemchar : ∀ e, e ∈ query_filter_by_components m cs ↔
      ∃ comp ∈ cs, ∃ tags, (e, tags) ∈ m ∧
        (∀ t ∈ comp.«with», t ∈ tags) ∧ (∀ t ∈ comp.without, t ∉ tags) := by
    intro e
    rw [mem_query_filter_by_components]
    constructor
    · rintro ⟨comp, hc, tags, hm, hmatch⟩
      obtain ⟨h1, h2⟩ := clauseMatch_iff.mp hmatch
      exact ⟨comp, hc, tags, hm, h1, h2⟩
    · rintro ⟨comp, hc, tags, hm, h1, h2⟩
      exact ⟨comp, hc, tags, hm, clauseMatch_iff.mpr ⟨h1, h2⟩⟩
  refine ⟨hmemchar, nodup_uniqueFirst, ?_, ?_⟩
  · intro comp hc hwith e tags hm hwout
    exact (hmemchar e).mpr ⟨comp, hc, tags, hm, by simp [hwith], hwout⟩
  · intro comp hc hwout e tags hm hwith
    exact (hmemchar e).mpr ⟨comp, hc, tags, hm, hwith, by simp [hwout]⟩

/-- C3 witness: the end-to-end scenario of the spec — clause
`with = [A], without = [C]` over `e1 : [A,B]` selects `e1`. -/
theorem query_filter_by_components_spec_witness :
    "e1" ∈ query_filter_by_components
      [("e1", ["A", "B"]), ("e2", ["A"]), ("e3", ["B", "C"])]
      [⟨["A"], ["C"]⟩] :=
  ((query_filter_by_components_spec
      [("e1", ["A", "B"]), ("e2", ["A"]), ("e3", ["B", "C"])]
      [⟨["A"], ["C"]⟩] (by decide)).1 ("e1")).mpr
    ⟨⟨["A"], ["C"]⟩, by decide, ["A", "B"], by decide, by decide, by decide⟩

/-- C4: the result of `query_filter_by_components` is order-independent
as a set of entity IDs: it is unchanged under any permutation of the
clause list and under any reordering or duplication of the entries of
the membership mapping (any mapping with the same entry set). -/
theorem query_filter_by_components_order_independent
    (m m' : List (EntityId × List Tag)) (cs cs' : List QueryWithComponents)
    (hperm : cs'.Perm cs) (hm : ∀ p, p ∈ m' ↔ p ∈ m) :
    ∀ e, e ∈ query_filter_by_components m' cs' ↔
      e ∈ query_filter_by_components m cs := by
  intro e
  rw [mem_query_filter_by_components, mem_query_filter_by_components]
  constructor
  · rintro ⟨comp, hc, tags, hmem, hmatch⟩
    exact ⟨comp, hperm.mem_iff.mp hc, tags, (hm (e, tags)).mp hmem, hmatch⟩
  · rintro ⟨comp, hc, tags, hmem, hmatch⟩
    exact ⟨comp, hperm.mem_iff.mpr hc, tags, (hm (e, tags)).mpr hmem, hmatch⟩

/-- C4 witness: swapping the two clauses and both permuting and
duplicating the mapping entries leaves the selected set unchanged. -/
theorem query_filter_by_components_order_independent_witness :
    "e1" ∈ query_filter_by_components
      [("e2", ["B"]), ("e1", ["A"]), ("e1", ["A"])]
      [⟨["B"], []⟩, ⟨["A"], []⟩] :=
  (query_filter_by_components_order_independent
    [("e1", ["A"]), ("e2", ["B"])]
    [("e2", ["B"]), ("e1", ["A"]), ("e1", ["A"])]
    [⟨["A"], []⟩, ⟨["B"], []⟩]
    [⟨["B"], []⟩, ⟨["A"], []⟩]
    (by decide) (by intro p; simp only [List.mem_cons, List.not_mem_nil]; tauto)
    ("e1")).mpr (by decide)

/-- C6: the output keys of `list_entities_components` are exactly the
distinct first elements of the input pairs (in first-seen order, without
duplicates), and each key maps to the sequence of that key's input tags
in input order, with duplicate input pairs preserved as duplicate
entries; looking up a non-key yields nothing. -/
theorem list_entities_components_spec (l : List (EntityId × Tag)) :
    (list_entities_components l).map Prod.fst = uniqueFirst (l.map Prod.fst)
    ∧ (∀ k, k ∈ (list_entities_components l).map Prod.fst ↔ k ∈ l.map Prod.fst)
    ∧ ((list_entities_components l).map Prod.fst).Nodup
    ∧ (∀ k, k ∈ l.map Prod.fst →
        getAssoc (list_entities_components l) k =
          some ((l.filter (fun p => p.1 = k)).map Prod.snd))
    ∧ (∀ k, k ∉ l.map Prod.fst →
        getAssoc (list_entities_components l) k = none) := by
  have hkeys : (list_entities_components l).map Prod.fst =
      uniqueFirst (l.map Prod.fst) := by
    rw [list_entities_components, map_fst_foldl_addPair]
    rfl
  refine ⟨hkeys, ?_, ?_, ?_, ?_⟩
  · intro k
    rw [hkeys, mem_uniqueFirst]
  · rw [hkeys]
    exact nodup_uniqueFirst
  · intro k hk
    rw [list_entities_components, getAssoc_foldl_addPair_none l [] k rfl, if_pos hk]
  · intro k hk
    rw [list_entities_components, getAssoc_foldl_addPair_none l [] k rfl, if_neg hk]

/-- C6 witness: a duplicate `(entity, tag)` pair is preserved as a
duplicate entry of that entity's tag sequence. -/
theorem list_entities_components_spec_witness :
    getAssoc (list_entities_components
      [("e1", "A"), ("e2", "B"), ("e1", "A")]) "e1" = some ["A", "A"] :=
  (list_entities_components_spec
    [("e1", "A"), ("e2", "B"), ("e1", "A")]).2.2.2.1 ("e1") (by decide)

/-- C8: emitted records keep the relative order of their entities in the
input entity-ID list (the kept entities form an order-preserving
sublist, never re-sorted), and each record holds the entity slot first
when the flag is set, then one slot per mandatory tag in caller order,
then one slot per optional tag in caller order. -/
theorem build_return_vectors_ordering (V : Type) (return_entity : Bool)
    (sel selOpt : List Tag) (entity_ids : List EntityId)
    (table : EntityId × Tag → Option V) :
    build_return_vectors return_entity sel selOpt entity_ids table =
      (entity_ids.filter (keepEntity sel table)).map (fun entity_id =>
        (if return_entity then [Slot.entity ⟨entity_id⟩] else [])
          ++ sel.filterMap (fun comp => (table (entity_id, comp)).map Slot.value)
          ++ selOpt.map (fun comp =>
              match table (entity_id, comp) with
              | some v => Slot.value v
              | none => Slot.nil))
    ∧ List.Sublist (entity_ids.filter (keepEntity sel table)) entity_ids :=
  ⟨build_return_vectors_eq return_entity sel selOpt entity_ids table,
    List.filter_sublist _⟩

/-- C9: with an empty mandatory-tag list, `build_return_vectors` emits
exactly one record per entry of the input entity-ID list — no entity is
dropped and duplicate IDs yield duplicate records — whatever the value
table holds. -/
theorem build_return_vectors_empty_mandatory (V : Type) (return_entity : Bool)
    (selOpt : List Tag) (entity_ids : List EntityId)
    (table : EntityId × Tag → Option V) :
    build_return_vectors return_entity [] selOpt entity_ids table =
      entity_ids.map (recordFor return_entity [] selOpt table)
    ∧ (build_return_vectors return_entity [] selOpt entity_ids table).length =
        entity_ids.length := by
  have hfilter : entity_ids.filter (keepEntity ([] : List Tag) table) = entity_ids :=
    List.filter_eq_self.mpr (fun a _ => rfl)
  have h := build_return_vectors_eq return_entity [] selOpt entity_ids table
  rw [hfilter] at h
  exact ⟨h, by rw [h, List.length_map]⟩

/-- C1: an entity of the input list with a failed mandatory lookup
contributes no record at all — the output equals the output computed
without that entity — while failed optional lookups only put the nil
sentinel in the corresponding record slot and never drop the entity. -/
theorem build_return_vectors_mandatory_drop_optional_nil (V : Type)
    (return_entity : Bool) (sel selOpt : List Tag) (entity_ids : List EntityId)
    (table : EntityId × Tag → Option V) (entity_id : EntityId)
    (hmem : entity_id ∈ entity_ids) :
    ((∃ comp ∈ sel, table (entity_id, comp) = none) →
        entityRecords return_entity sel selOpt table entity_id = []
        ∧ build_return_vectors return_entity sel selOpt entity_ids table =
            build_return_vectors return_entity sel selOpt
              (entity_ids.filter (fun e => e ≠ entity_id)) table)
    ∧ ((∀ comp ∈ sel, (table (entity_id, comp)).isSome) →
        entityRecords return_entity sel selOpt table entity_id =
          [recordFor return_entity sel selOpt table entity_id]
        ∧ (∀ i, ∀ hi : i < selOpt.length,
            table (entity_id, selOpt.get ⟨i, hi⟩) = none →
              (recordFor return_entity sel selOpt table entity_id).get?
                ((if return_entity then 1 else 0) + sel.length + i) =
                some Slot.nil)) := by
  constructor
  · rintro ⟨comp, hc, hnone⟩
    have hkeep : keepEntity sel table entity_id = false := by
      rw [← Bool.not_eq_true]
      intro hall
      have hs := List.all_eq_true.mp hall comp hc
      rw [hnone] at hs
      simp at hs
    have hrec : entityRecords return_entity sel selOpt table entity_id = [] := by
      rw [entityRecords_eq, hkeep]
      simp
    refine ⟨hrec, ?_⟩
    exact (flatMap_filter_ne
      (entityRecords return_entity sel selOpt table) entity_ids entity_id hrec).symm
  · intro hall
    have hkeep : keepEntity sel table entity_id = true := List.all_eq_true.mpr hall
    have hrec : entityRecords return_entity sel selOpt table entity_id =
        [recordFor return_entity sel selOpt table entity_id] := by
      rw [entityRecords_eq, hkeep]
      simp
    refine ⟨hrec, ?_⟩
    intro i hi hnone
    have hlenm : (sel.filterMap
        (fun comp => (table (entity_id, comp)).map Slot.value)).length = sel.length :=
      length_filterMap_of_isSome table entity_id sel hall
    have hlenh : ((if return_entity then [Slot.entity ⟨entity_id⟩] else [])
        : List (Slot V)).length = if return_entity then 1 else 0 := by
      cases return_entity <;> rfl
    have hlen : (((if return_entity then [Slot.entity ⟨entity_id⟩] else [])
        : List (Slot V)) ++ sel.filterMap
          (fun comp => (table (entity_id, comp)).map Slot.value)).length =
        (if return_entity then 1 else 0) + sel.length := by
      rw [List.length_append, hlenm, hlenh]
    rw [recordFor, ← hlen, List.get?_append_right (Nat.le_add_right _ _),
      Nat.add_sub_cancel_left, optionalLoop, List.get?_map, List.get?_eq_get hi,
      Option.map_some', hnone]

/-- C1 witness: entity `ex`, missing the mandatory tag `A` in the value
table, contributes no record at all. -/
theorem build_return_vectors_mandatory_drop_optional_nil_witness :
    entityRecords true ["A"] ["B"]
      (fun p => if p = (("e1" : EntityId), ("A" : Tag)) then some 1 else none)
      "ex" = [] :=
  ((build_return_vectors_mandatory_drop_optional_nil Nat true ["A"] ["B"]
      ["e1", "ex"]
      (fun p => if p = (("e1" : EntityId), ("A" : Tag)) then some 1 else none)
      "ex" (by decide)).1 ⟨"A", by decide, by decide⟩).1

end Ecspanse
